import Mathlib

/-!
Verification development for the Lorenz cipher machine simulator
(file LorenzMachine.py): wheels, wheel banks, the motor bank with its
irregular stepping rule, and the XOR stream-cipher transform.

Modelling conventions, chosen to match Python semantics exactly:
* Python integers are `Int` (wheel sizes, positions, pattern entries)
  or `Nat` (symbol codes and aggregate values, which are non-negative).
* The Python operator `%` rounds toward negative infinity, which is
  `Int.fmod`; it raises `ZeroDivisionError` for modulus `0`, so
  `Wheel.advance` returns `Option`.
* Python list indexing admits negative indices and raises `IndexError`
  out of range; `pyIndex` models it with `Option`.
* Python int parsing with base 2 accepts an optional 0b prefix, parses
  binary digits, and raises `ValueError` on an empty digit string or on
  any character that is not a binary digit; `parseBin` models this.
* Fallible code returns `Option`; `none` is an uncaught exception.
-/

/-- Python list indexing `l[i]`: non-negative indices from the front,
negative indices from the back, `none` models `IndexError`. -/
def pyIndex (l : List Int) (i : Int) : Option Int :=
  if 0 ≤ i then l.get? i.toNat
  else if 0 ≤ (l.length : Int) + i then l.get? ((l.length : Int) + i).toNat
  else none

/-- A single wheel: name, bit pattern, declared size, current position.
Fields mirror the attributes set in `Wheel.__init__`. -/
structure Wheel where
  wheel_name : String
  wheel_data : List Int
  wheel_size : Int
  current_position : Int
deriving DecidableEq, Repr

/-- `Wheel.__init__(wheel_name, wheel_size, initial_position, wheel_data)`:
stores the arguments verbatim, with no validation of any kind. -/
def mkWheel (wheel_name : String) (wheel_size initial_position : Int)
    (wheel_data : List Int) : Wheel :=
  ⟨wheel_name, wheel_data, wheel_size, initial_position⟩

/-- `Wheel.advance`: `current_position = (current_position + 1) % wheel_size`.
Python `%` is floor-mod (`Int.fmod`) and raises on modulus `0`. -/
def Wheel.advance (w : Wheel) : Option Wheel :=
  if w.wheel_size = 0 then none
  else some { w with current_position := Int.fmod (w.current_position + 1) w.wheel_size }

/-- `Wheel.get_current_value`: `wheel_data[current_position]`. -/
def Wheel.get_current_value (w : Wheel) : Option Int :=
  pyIndex w.wheel_data w.current_position

/-- A bank of wheels (`WheelSet.__init__(*wheels)`): stores the wheels. -/
structure WheelSet where
  wheels : List Wheel
deriving DecidableEq, Repr

/-- `WheelSet.__init__`: accepts any number of wheels, no validation. -/
def mkWheelSet (wheels : List Wheel) : WheelSet :=
  ⟨wheels⟩

/-- The loop body of `WheelSet.advance`: advance every wheel in order. -/
def advanceWheels : List Wheel → Option (List Wheel)
  | [] => some []
  | w :: ws =>
    (w.advance).bind fun w1 =>
    (advanceWheels ws).bind fun ws1 =>
    some (w1 :: ws1)

/-- `WheelSet.advance`: advances every owned wheel once. -/
def WheelSet.advance (s : WheelSet) : Option WheelSet :=
  (advanceWheels s.wheels).bind fun ws => some ⟨ws⟩

/-- The loop of `WheelSet.get_current_value` building `result`:
read `get_current_value` of every wheel in bank order. -/
def readWheels : List Wheel → Option (List Int)
  | [] => some []
  | w :: ws =>
    (w.get_current_value).bind fun v =>
    (readWheels ws).bind fun vs =>
    some (v :: vs)

/-- Auxiliary for `int(-, base=2)`: consume binary digits left to right,
`none` on a character that is not a binary digit. -/
def binDigitsAux : List Char → Nat → Option Nat
  | [], acc => some acc
  | c :: cs, acc =>
    if c = '0' then binDigitsAux cs (2 * acc)
    else if c = '1' then binDigitsAux cs (2 * acc + 1)
    else none

/-- Python int parsing with base 2 applied to 0b followed by `s`: the 0b
prefix is stripped, an empty digit string raises `ValueError`, otherwise
binary digits are parsed. -/
def parseBin (s : List Char) : Option Nat :=
  if s = [] then none else binDigitsAux s 0

/-- The join of the decimal renderings of the list elements, as built by
the str conversion and string join inside `get_current_value`, seen as a
character list. -/
def strConcatData : List Int → List Char
  | [] => []
  | v :: vs => (toString v).data ++ strConcatData vs

/-- `WheelSet.get_current_value`: read all wheels, reverse the list (the
wheel with id 0 is the least significant bit), join the decimal renderings
and parse the result as a binary numeral. -/
def WheelSet.get_current_value (s : WheelSet) : Option Nat :=
  (readWheels s.wheels).bind fun result =>
  parseBin (strConcatData result.reverse)

/-- The motor (M) wheel set: same stored data as `WheelSet`, but
`advance` is overridden and `is_active` is added. -/
structure MotorWheelSet where
  wheels : List Wheel
deriving DecidableEq, Repr

/-- `MotorWheelSet.__init__`: stores the wheels, no validation. -/
def mkMotorWheelSet (wheels : List Wheel) : MotorWheelSet :=
  ⟨wheels⟩

/-- `MotorWheelSet.advance`: wheel 0 advances unconditionally; wheel 1
advances exactly when the post-advance current value of wheel 0 equals 1.
Missing wheels are `IndexError` (`none`). -/
def MotorWheelSet.advance (m : MotorWheelSet) : Option MotorWheelSet :=
  match m.wheels with
  | [] => none
  | w0 :: rest =>
    (w0.advance).bind fun w0a =>
    (w0a.get_current_value).bind fun v =>
    if v = 1 then
      match rest with
      | [] => none
      | w1 :: rest2 =>
        (w1.advance).bind fun w1a =>
        some ⟨w0a :: w1a :: rest2⟩
    else
      some ⟨w0a :: rest⟩

/-- `MotorWheelSet.is_active`: `True if wheels[1].get_current_value() == 1
else False`. -/
def MotorWheelSet.is_active (m : MotorWheelSet) : Option Bool :=
  match m.wheels.get? 1 with
  | none => none
  | some w1 =>
    (w1.get_current_value).bind fun v =>
    if v = 1 then some true else some false

/-- The machine: one K bank, one S bank, one motor bank. -/
structure LorenzMachine where
  k_set : WheelSet
  s_set : WheelSet
  m_set : MotorWheelSet
deriving DecidableEq, Repr

/-- `LorenzMachine.advance`: K bank advances, then the motor bank
advances, then the S bank advances exactly when the motor bank is
active (read after the own advance of the motor bank). -/
def LorenzMachine.advance (m : LorenzMachine) : Option LorenzMachine :=
  (m.k_set.advance).bind fun k1 =>
  (m.m_set.advance).bind fun ms1 =>
  (ms1.is_active).bind fun active =>
  if active then
    (m.s_set.advance).bind fun s1 =>
    some ⟨k1, s1, ms1⟩
  else
    some ⟨k1, m.s_set, ms1⟩

/-- `LorenzMachine.encrypt_character`: XOR the code with the aggregate
values of both banks read from the pre-advance state, then advance once. -/
def LorenzMachine.encrypt_character (m : LorenzMachine) (char : Nat) :
    Option (Nat × LorenzMachine) :=
  (m.k_set.get_current_value).bind fun kv =>
  (m.s_set.get_current_value).bind fun sv =>
  (m.advance).bind fun m1 =>
  some (char ^^^ kv ^^^ sv, m1)

/-- The list comprehension in `LorenzMachine.encrypt_message`:
`[self.encrypt_character(number) for number in message]`, a strictly
sequential stateful map. -/
def LorenzMachine.encrypt_list (m : LorenzMachine) :
    List Nat → Option (List Nat × LorenzMachine)
  | [] => some ([], m)
  | c :: cs =>
    (m.encrypt_character c).bind fun p =>
    (p.2.encrypt_list cs).bind fun q =>
    some (p.1 :: q.1, q.2)

/-- Python format with the 05b format specification: binary digits of
`n`, left padded with zeros to width 5 (wider numbers are not
truncated). -/
def format05b (n : Nat) : List Char :=
  let s := Nat.toDigits 2 n
  List.replicate (5 - s.length) '0' ++ s

/-- `LorenzMachine.encrypt_message`: encrypt every code in order, then
render a 0b prefix followed by the 5-bit binary form of each output
code. -/
def LorenzMachine.encrypt_message (m : LorenzMachine) (message : List Nat) :
    Option (List Char × LorenzMachine) :=
  (m.encrypt_list message).bind fun q =>
  some ('0' :: 'b' :: (q.1.map format05b).flatten, q.2)

/-- The keystream value named by the spec: the XOR of the aggregate
values of the two banks, as read inline by `encrypt_character`. -/
def LorenzMachine.keystreamValue (m : LorenzMachine) : Option Nat :=
  (m.k_set.get_current_value).bind fun kv =>
  (m.s_set.get_current_value).bind fun sv =>
  some (kv ^^^ sv)

/-- Iterated machine advance. -/
def LorenzMachine.advanceN (m : LorenzMachine) : Nat → Option LorenzMachine
  | 0 => some m
  | n + 1 => (m.advance).bind fun m1 => m1.advanceN n

/-- Iterated wheel advance. -/
def Wheel.advanceN (w : Wheel) : Nat → Option Wheel
  | 0 => some w
  | n + 1 => (w.advance).bind fun w1 => w1.advanceN n

/-- Little-endian composition of a bit list: the head is the least
significant bit. -/
def bitsToNat : List Int → Nat
  | [] => 0
  | v :: vs => v.toNat + 2 * bitsToNat vs

/-- One round of keystream application followed by a second round with
the same keystream bits restores the plaintext code. -/
lemma xorRound (a k s : Nat) : ((a ^^^ k ^^^ s) ^^^ k) ^^^ s = a := by
  rw [Nat.xor_assoc a k s, Nat.xor_assoc, Nat.xor_cancel_right]

/-- Feeding the output of `encrypt_character` to a machine in the same
state reproduces the input code with the same successor state. -/
lemma encrypt_character_invol (m : LorenzMachine) (c r : Nat) (m1 : LorenzMachine)
    (h : m.encrypt_character c = some (r, m1)) :
    m.encrypt_character r = some (c, m1) := by
  simp only [LorenzMachine.encrypt_character, Option.bind_eq_some, Option.some.injEq,
    Prod.mk.injEq] at h ⊢
  obtain ⟨kv, hk, sv, hs, ma, ha, hr, hm⟩ := h
  subst hr; subst hm
  exact ⟨kv, hk, sv, hs, ma, ha, xorRound c kv sv, rfl⟩

/-- A small fully concrete machine used to evaluate the theorems: one K
wheel with pattern bit 1, one S wheel with pattern bit 0, two motor
wheels with pattern bit 1, all of size 1 at position 0. -/
def wMachine : LorenzMachine :=
  ⟨⟨[⟨"k", [1], 1, 0⟩]⟩, ⟨[⟨"s", [0], 1, 0⟩]⟩,
   ⟨[⟨"m1", [1], 1, 0⟩, ⟨"m2", [1], 1, 0⟩]⟩⟩

/-- A copy of `wMachine` whose motor wheel 1 reads bit 0, so that the
motor bank is never active. -/
def wMachineIdle : LorenzMachine :=
  ⟨⟨[⟨"k", [1], 1, 0⟩]⟩, ⟨[⟨"s", [0], 1, 0⟩]⟩,
   ⟨[⟨"m1", [1], 1, 0⟩, ⟨"m2", [0], 1, 0⟩]⟩⟩

/-- C1: encrypting a code sequence and then encrypting the resulting
output on an identically constructed machine (same state value, advanced
independently) yields the original sequence, with the same final state,
because each symbol is XORed with the same per-step keystream value on
both runs. -/
theorem C1_self_inverse :
    ∀ (m : LorenzMachine) (msg rs : List Nat) (mf : LorenzMachine),
      m.encrypt_list msg = some (rs, mf) → m.encrypt_list rs = some (msg, mf) := by
  intro m msg
  induction msg generalizing m with
  | nil =>
    intro rs mf h
    simp only [LorenzMachine.encrypt_list, Option.some.injEq, Prod.mk.injEq] at h
    obtain ⟨h1, h2⟩ := h
    subst h1; subst h2
    rfl
  | cons c cs ih =>
    intro rs mf h
    simp only [LorenzMachine.encrypt_list, Option.bind_eq_some, Option.some.injEq,
      Prod.mk.injEq] at h
    obtain ⟨⟨r, m1⟩, hc, ⟨rs1, m2⟩, hrest, hr, hm⟩ := h
    subst hr; subst hm
    have hc2 := encrypt_character_invol m c r m1 hc
    have hrest2 := ih m1 rs1 m2 hrest
    simp only [LorenzMachine.encrypt_list, Option.bind_eq_some, Option.some.injEq,
      Prod.mk.injEq]
    exact ⟨(c, m1), hc2, (cs, m2), hrest2, rfl, rfl⟩

/-- C1 witness: on `wMachine` the sequence 0, 3 encrypts to 1, 2, and
re-encrypting 1, 2 on a fresh copy restores 0, 3. -/
theorem C1_self_inverse_witness :
    wMachine.encrypt_list [1, 2] = some ([0, 3], wMachine) :=
  C1_self_inverse wMachine [0, 3] [1, 2] wMachine (by decide)

/-- Auxiliary for C2: element `i` of an encryption run is the input code
XORed with the keystream value of the machine reached by exactly `i`
advances from the initial state. -/
lemma encrypt_list_get (msg : List Nat) :
    ∀ (m : LorenzMachine) (rs : List Nat) (mf : LorenzMachine) (i : Nat)
      (mi : LorenzMachine) (ks : Nat),
      m.encrypt_list msg = some (rs, mf) → m.advanceN i = some mi →
      mi.keystreamValue = some ks → i < msg.length →
      rs.get? i = some (msg.getD i 0 ^^^ ks) := by
  induction msg with
  | nil =>
    intro m rs mf i mi ks hel hadv hks hlen
    simp at hlen
  | cons c cs ih =>
    intro m rs mf i mi ks hel hadv hks hlen
    simp only [LorenzMachine.encrypt_list, Option.bind_eq_some, Option.some.injEq,
      Prod.mk.injEq] at hel
    obtain ⟨⟨r, m1⟩, hc, ⟨rs1, m2⟩, hrest, hr, hm⟩ := hel
    subst hr; subst hm
    simp only [LorenzMachine.encrypt_character, Option.bind_eq_some, Option.some.injEq,
      Prod.mk.injEq] at hc
    obtain ⟨kv, hk, sv, hs, ma, hadv1, hrr, hmm⟩ := hc
    subst hrr; subst hmm
    cases i with
    | zero =>
      simp only [LorenzMachine.advanceN, Option.some.injEq] at hadv
      subst hadv
      simp only [LorenzMachine.keystreamValue, Option.bind_eq_some, Option.some.injEq] at hks
      obtain ⟨kv2, hk2, sv2, hs2, hkseq⟩ := hks
      rw [hk] at hk2
      rw [hs] at hs2
      obtain rfl : kv2 = kv := (Option.some.injEq .. ▸ hk2).symm
      obtain rfl : sv2 = sv := (Option.some.injEq .. ▸ hs2).symm
      subst hkseq
      simp [Nat.xor_assoc]
    | succ j =>
      simp only [LorenzMachine.advanceN, Option.bind_eq_some] at hadv
      obtain ⟨mb, hadv2, hadvN⟩ := hadv
      rw [hadv1] at hadv2
      obtain rfl : mb = ma := (Option.some.injEq .. ▸ hadv2).symm
      simp only [List.get?_cons_succ, List.getD_cons_succ]
      exact ih mb rs1 m2 j mi ks hrest hadvN hks (by simpa using hlen)

/-- C2: encrypting one symbol returns the code XORed with the XOR of the
two bank aggregates read from the pre-advance state, and the machine is
then advanced by exactly one step; consequently in a sequence, code `i`
is encrypted with the keystream value reached after exactly `i` prior
advances from the initial state. -/
theorem C2_encrypt_character_keystream :
    (∀ (m : LorenzMachine) (ch kv sv : Nat) (m1 : LorenzMachine),
        m.k_set.get_current_value = some kv →
        m.s_set.get_current_value = some sv →
        m.advance = some m1 →
        m.encrypt_character ch = some (ch ^^^ (kv ^^^ sv), m1))
    ∧ (∀ (m : LorenzMachine) (msg rs : List Nat) (mf : LorenzMachine) (i : Nat)
        (mi : LorenzMachine) (ks : Nat),
        m.encrypt_list msg = some (rs, mf) → m.advanceN i = some mi →
        mi.keystreamValue = some ks → i < msg.length →
        rs.get? i = some (msg.getD i 0 ^^^ ks)) := by
  constructor
  · intro m ch kv sv m1 hk hs ha
    simp [LorenzMachine.encrypt_character, hk, hs, ha, Nat.xor_assoc]
  · intro m msg rs mf i mi ks h1 h2 h3 h4
    exact encrypt_list_get msg m rs mf i mi ks h1 h2 h3 h4

/-- C2 witness: on `wMachine` the keystream value is 1, a single symbol
3 encrypts to 2 with the state advanced once, and element 0 of a run
uses the keystream after zero advances. -/
theorem C2_encrypt_character_keystream_witness :
    wMachine.encrypt_character 3 = some (3 ^^^ (1 ^^^ 0), wMachine) ∧
    ([2] : List Nat).get? 0 = some (([3] : List Nat).getD 0 0 ^^^ 1) :=
  ⟨C2_encrypt_character_keystream.1 wMachine 3 1 0 wMachine (by decide) (by decide)
      (by decide),
    C2_encrypt_character_keystream.2 wMachine [3] [2] wMachine 0 wMachine 1 (by decide)
      (by decide) (by decide) (by decide)⟩

/-- Auxiliary for C6: an encryption run produces exactly one output code
per input code. -/
lemma encrypt_list_length (msg : List Nat) :
    ∀ (m : LorenzMachine) (rs : List Nat) (mf : LorenzMachine),
      m.encrypt_list msg = some (rs, mf) → rs.length = msg.length := by
  induction msg with
  | nil =>
    intro m rs mf h
    simp only [LorenzMachine.encrypt_list, Option.some.injEq, Prod.mk.injEq] at h
    obtain ⟨h1, _⟩ := h
    subst h1
    rfl
  | cons c cs ih =>
    intro m rs mf h
    simp only [LorenzMachine.encrypt_list, Option.bind_eq_some, Option.some.injEq,
      Prod.mk.injEq] at h
    obtain ⟨⟨r, m1⟩, _, ⟨rs1, m2⟩, hrest, hr, _⟩ := h
    subst hr
    simpa using ih m1 rs1 m2 hrest

/-- C6: the encryption of a sequence yields one output element per input
element in order, hence equal lengths; the empty input yields the empty
output with the machine state untouched (zero advances), both at the
level of the code list and of the rendered message, which is then just
the 0b prefix. -/
theorem C6_sequence_length :
    (∀ (m : LorenzMachine) (msg rs : List Nat) (mf : LorenzMachine),
        m.encrypt_list msg = some (rs, mf) → rs.length = msg.length)
    ∧ (∀ m : LorenzMachine, m.encrypt_list [] = some ([], m))
    ∧ (∀ m : LorenzMachine, m.encrypt_message [] = some (['0', 'b'], m)) := by
  refine ⟨?_, fun m => rfl, fun m => rfl⟩
  intro m msg rs mf h
  exact encrypt_list_length msg m rs mf h

/-- C6 witness: a concrete two-element run has a two-element output. -/
theorem C6_sequence_length_witness : ([1, 2] : List Nat).length = ([0, 3] : List Nat).length :=
  C6_sequence_length.1 wMachine [0, 3] [1, 2] wMachine (by decide)

/-- C3: one machine step advances the K bank, then the motor bank, and
then advances the S bank exactly when the is-active signal of the motor
bank, read after its own advance in the same cycle, is true; when the
motor bank is not active the S bank, and hence every S wheel position,
is left unchanged. -/
theorem C3_machine_step_order :
    ∀ (m : LorenzMachine) (k1 : WheelSet) (ms1 : MotorWheelSet),
      m.k_set.advance = some k1 →
      m.m_set.advance = some ms1 →
      ((∀ s1 : WheelSet, ms1.is_active = some true → m.s_set.advance = some s1 →
          m.advance = some ⟨k1, s1, ms1⟩)
        ∧ (ms1.is_active = some false →
          m.advance = some ⟨k1, m.s_set, ms1⟩
            ∧ ∀ i : Nat,
              ((⟨k1, m.s_set, ms1⟩ : LorenzMachine).s_set.wheels.get? i).map
                  Wheel.current_position
                = (m.s_set.wheels.get? i).map Wheel.current_position)) := by
  intro m k1 ms1 hk hm
  constructor
  · intro s1 hact hs
    simp [LorenzMachine.advance, hk, hm, hact, hs]
  · intro hact
    refine ⟨?_, fun i => rfl⟩
    simp [LorenzMachine.advance, hk, hm, hact]

/-- C3 witness: on `wMachine` the motor bank is active and the step
advances all three banks; on `wMachineIdle` the motor bank is inactive
and the step leaves the S bank untouched. -/
theorem C3_machine_step_order_witness :
    wMachine.advance = some ⟨wMachine.k_set, wMachine.s_set, wMachine.m_set⟩ ∧
    wMachineIdle.advance = some ⟨wMachineIdle.k_set, wMachineIdle.s_set, wMachineIdle.m_set⟩ :=
  ⟨(C3_machine_step_order wMachine wMachine.k_set wMachine.m_set (by decide)
      (by decide)).1 wMachine.s_set (by decide) (by decide),
   ((C3_machine_step_order wMachineIdle wMachineIdle.k_set wMachineIdle.m_set (by decide)
      (by decide)).2 (by decide)).1⟩

/-- C4: on a motor bank advance, wheel 0 advances one position and wheel
1 advances exactly when the post-advance bit of wheel 0 equals 1; with a
wheel 0 pattern of a single 1 bit, wheel 1 advances every cycle, with a
wheel 0 pattern of two 0 bits it never advances; the is-active signal is
true exactly when the current bit of wheel 1 is 1. -/
theorem C4_motor_gating :
    (∀ (w0 w1 w0a : Wheel) (v : Int) (w1a : Wheel),
        w0.advance = some w0a → w0a.get_current_value = some v → v = 1 →
        w1.advance = some w1a →
        MotorWheelSet.advance ⟨[w0, w1]⟩ = some ⟨[w0a, w1a]⟩)
    ∧ (∀ (w0 w1 w0a : Wheel) (v : Int),
        w0.advance = some w0a → w0a.get_current_value = some v → v ≠ 1 →
        MotorWheelSet.advance ⟨[w0, w1]⟩ = some ⟨[w0a, w1]⟩)
    ∧ (∀ (nm : String) (p : Int) (w1 w1a : Wheel),
        w1.advance = some w1a →
        MotorWheelSet.advance ⟨[mkWheel nm 1 p [1], w1]⟩
          = some ⟨[mkWheel nm 1 0 [1], w1a]⟩)
    ∧ (∀ (nm : String) (p : Int) (w1 : Wheel),
        MotorWheelSet.advance ⟨[mkWheel nm 2 p [0, 0], w1]⟩
          = some ⟨[mkWheel nm 2 (Int.fmod (p + 1) 2) [0, 0], w1]⟩)
    ∧ (∀ (w0 w1 : Wheel) (v : Int),
        w1.get_current_value = some v →
        (MotorWheelSet.is_active ⟨[w0, w1]⟩ = some true ↔ v = 1)) := by
  refine ⟨?_, ?_, ?_, ?_, ?_⟩
  · intro w0 w1 w0a v w1a hadv hval hv h1
    subst hv
    simp [MotorWheelSet.advance, hadv, hval, h1]
  · intro w0 w1 w0a v hadv hval hv
    simp [MotorWheelSet.advance, hadv, hval, hv]
  · intro nm p w1 w1a h1
    have hadv : (mkWheel nm 1 p [1]).advance = some (mkWheel nm 1 0 [1]) := by
      simp [Wheel.advance, mkWheel, Int.fmod_one]
    have hval : (mkWheel nm 1 0 [1]).get_current_value = some 1 := rfl
    simp [MotorWheelSet.advance, hadv, hval, h1]
  · intro nm p w1
    have h0 : 0 ≤ Int.fmod (p + 1) 2 := Int.fmod_nonneg' _ (by decide)
    have h2 : Int.fmod (p + 1) 2 < 2 := Int.fmod_lt_of_pos _ (by decide)
    have hadv : (mkWheel nm 2 p [0, 0]).advance
        = some (mkWheel nm 2 (Int.fmod (p + 1) 2) [0, 0]) := by
      simp [Wheel.advance, mkWheel]
    have hval : (mkWheel nm 2 (Int.fmod (p + 1) 2) [0, 0]).get_current_value = some 0 := by
      have hq : Int.fmod (p + 1) 2 = 0 ∨ Int.fmod (p + 1) 2 = 1 := by omega
      rcases hq with h | h <;> rw [Wheel.get_current_value, mkWheel, h] <;> rfl
    simp [MotorWheelSet.advance, hadv, hval]
  · intro w0 w1 v hval
    by_cases h : v = 1
    · subst h
      simp [MotorWheelSet.is_active, hval]
    · simp [MotorWheelSet.is_active, hval, h]

/-- C4 witness: concrete motor banks exercising the gated advance, the
ungated case, the always-1 pattern, the all-0 pattern, and the is-active
signal. -/
theorem C4_motor_gating_witness :
    MotorWheelSet.advance ⟨[⟨"a", [1, 1], 2, 0⟩, ⟨"b", [1], 1, 0⟩]⟩
        = some ⟨[⟨"a", [1, 1], 2, 1⟩, ⟨"b", [1], 1, 0⟩]⟩ ∧
    MotorWheelSet.advance ⟨[⟨"c", [0, 0], 2, 0⟩, ⟨"b", [1], 1, 0⟩]⟩
        = some ⟨[⟨"c", [0, 0], 2, 1⟩, ⟨"b", [1], 1, 0⟩]⟩ ∧
    MotorWheelSet.advance ⟨[mkWheel ("m") 1 5 [1], ⟨"b", [1], 1, 0⟩]⟩
        = some ⟨[mkWheel ("m") 1 0 [1], ⟨"b", [1], 1, 0⟩]⟩ ∧
    MotorWheelSet.advance ⟨[mkWheel ("m") 2 0 [0, 0], ⟨"b", [1], 1, 0⟩]⟩
        = some ⟨[mkWheel ("m") 2 (Int.fmod 1 2) [0, 0], ⟨"b", [1], 1, 0⟩]⟩ ∧
    (MotorWheelSet.is_active ⟨[⟨"a", [1, 1], 2, 0⟩, ⟨"b", [1], 1, 0⟩]⟩ = some true ↔
      (1 : Int) = 1) :=
  ⟨C4_motor_gating.1 ⟨"a", [1, 1], 2, 0⟩ ⟨"b", [1], 1, 0⟩ ⟨"a", [1, 1], 2, 1⟩ 1
      ⟨"b", [1], 1, 0⟩ (by decide) (by decide) rfl (by decide),
   C4_motor_gating.2.1 ⟨"c", [0, 0], 2, 0⟩ ⟨"b", [1], 1, 0⟩ ⟨"c", [0, 0], 2, 1⟩ 0
      (by decide) (by decide) (by decide),
   C4_motor_gating.2.2.1 ("m") 5 ⟨"b", [1], 1, 0⟩ ⟨"b", [1], 1, 0⟩ (by decide),
   C4_motor_gating.2.2.2.1 ("m") 0 ⟨"b", [1], 1, 0⟩,
   C4_motor_gating.2.2.2.2 ⟨"a", [1, 1], 2, 0⟩ ⟨"b", [1], 1, 0⟩ 1 (by decide)⟩

/-- The joined rendering of an appended list splits into the two joined
renderings. -/
lemma strConcatData_append (l1 l2 : List Int) :
    strConcatData (l1 ++ l2) = strConcatData l1 ++ strConcatData l2 := by
  induction l1 with
  | nil => simp [strConcatData]
  | cons v vs ih => simp [strConcatData, ih]

/-- Digit consumption over an appended character list is sequential. -/
lemma binDigitsAux_append (l1 l2 : List Char) (acc : Nat) :
    binDigitsAux (l1 ++ l2) acc
      = (binDigitsAux l1 acc).bind fun a => binDigitsAux l2 a := by
  induction l1 generalizing acc with
  | nil => simp [binDigitsAux]
  | cons c cs ih =>
    simp only [List.cons_append, binDigitsAux]
    by_cases h0 : c = '0'
    · simp [h0, ih]
    · by_cases h1 : c = '1' <;> simp [h0, h1, ih]

/-- Parsing the reversed rendering of a bit list accumulates its
little-endian value below the incoming accumulator. -/
lemma binDigitsAux_bits (vals : List Int) :
    ∀ acc : Nat, (∀ v ∈ vals, v = 0 ∨ v = 1) →
      binDigitsAux (strConcatData vals.reverse) acc
        = some (acc * 2 ^ vals.length + bitsToNat vals) := by
  induction vals with
  | nil =>
    intro acc h
    simp [strConcatData, binDigitsAux, bitsToNat]
  | cons v vs ih =>
    intro acc h
    have hv := h v (List.mem_cons_self v vs)
    have hvs : ∀ u ∈ vs, u = 0 ∨ u = 1 := fun u hu => h u (List.mem_cons_of_mem v hu)
    rw [List.reverse_cons, strConcatData_append, binDigitsAux_append, ih acc hvs]
    rcases hv with hv | hv <;> subst hv
    · have hz : (toString (0 : Int)).data = ['0'] := by decide
      simp only [strConcatData, hz, Option.some_bind, List.append_nil, binDigitsAux,
        if_pos rfl, bitsToNat, List.length_cons]
      rw [pow_succ]
      exact congrArg some (by simp only [Int.toNat_zero]; ring)
    · have ho : (toString (1 : Int)).data = ['1'] := by decide
      have hone : binDigitsAux ['1'] (acc * 2 ^ vs.length + bitsToNat vs)
          = some (2 * (acc * 2 ^ vs.length + bitsToNat vs) + 1) := by
        simp [binDigitsAux]
      simp only [strConcatData, ho, Option.some_bind, List.append_nil, hone,
        bitsToNat, List.length_cons, Int.toNat_one]
      rw [pow_succ]
      exact congrArg some (by ring)

/-- The little-endian value of an N-element bit list is below 2 to the N. -/
lemma bitsToNat_lt (vals : List Int) (h : ∀ v ∈ vals, v = 0 ∨ v = 1) :
    bitsToNat vals < 2 ^ vals.length := by
  induction vals with
  | nil => simp [bitsToNat]
  | cons v vs ih =>
    have hv := h v (List.mem_cons_self v vs)
    have ihv := ih (fun u hu => h u (List.mem_cons_of_mem v hu))
    rcases hv with hv | hv <;> subst hv <;>
      simp only [bitsToNat, List.length_cons, pow_succ] <;> omega

/-- Reading a wheel bank yields one value per wheel. -/
lemma readWheels_length (l : List Wheel) :
    ∀ vals : List Int, readWheels l = some vals → vals.length = l.length := by
  induction l with
  | nil =>
    intro vals h
    simp only [readWheels, Option.some.injEq] at h
    subst h
    rfl
  | cons w ws ih =>
    intro vals h
    simp only [readWheels, Option.bind_eq_some, Option.some.injEq] at h
    obtain ⟨v, _, vs, hvs, hcons⟩ := h
    subst hcons
    simpa using ih vs hvs

/-- C5: for a non-empty bank whose wheels read bits 0 or 1, the
aggregate value is the little-endian composition of the current bits,
the first wheel giving the least significant bit, and lies below 2 to
the wheel count; a 3-wheel bank with current bits 1, 0, 1 yields 5. The
read is a pure function of the bank state and returns no mutated bank. -/
theorem C5_aggregate_value :
    (∀ (s : WheelSet) (vals : List Int),
        readWheels s.wheels = some vals →
        vals ≠ [] →
        (∀ v ∈ vals, v = 0 ∨ v = 1) →
        s.get_current_value = some (bitsToNat vals)
          ∧ bitsToNat vals < 2 ^ s.wheels.length)
    ∧ WheelSet.get_current_value
        ⟨[⟨"a", [1], 1, 0⟩, ⟨"b", [0], 1, 0⟩, ⟨"c", [1], 1, 0⟩]⟩ = some 5 := by
  constructor
  · intro s vals hread hne hbits
    have hlen := readWheels_length s.wheels vals hread
    have hne2 : vals.reverse ≠ [] := by simpa using hne
    obtain ⟨c, t, hct⟩ := List.exists_cons_of_ne_nil hne2
    have hc : c ∈ vals := by
      have hmem : c ∈ vals.reverse := by rw [hct]; exact List.mem_cons_self c t
      simpa using hmem
    have hd : (toString c).data ≠ [] := by
      rcases hbits c hc with h | h <;> subst h <;> decide
    have hnonempty : strConcatData vals.reverse ≠ [] := by
      rw [hct, strConcatData]
      exact fun habs => hd (List.append_eq_nil.mp habs).1
    constructor
    · simp only [WheelSet.get_current_value, hread, Option.some_bind, parseBin,
        if_neg hnonempty]
      rw [binDigitsAux_bits vals 0 hbits]
      simp
    · exact hlen ▸ bitsToNat_lt vals hbits
  · decide

/-- C5 witness: the 3-wheel bank with bits 1, 0, 1 aggregates to the
little-endian value of its bit list, which is below 8. -/
theorem C5_aggregate_value_witness :
    WheelSet.get_current_value
        ⟨[⟨"x", [1], 1, 0⟩, ⟨"y", [0], 1, 0⟩, ⟨"z", [1], 1, 0⟩]⟩
      = some (bitsToNat [1, 0, 1]) ∧
    bitsToNat [1, 0, 1]
      < 2 ^ (WheelSet.wheels ⟨[⟨"x", [1], 1, 0⟩, ⟨"y", [0], 1, 0⟩, ⟨"z", [1], 1, 0⟩]⟩).length :=
  C5_aggregate_value.1 ⟨[⟨"x", [1], 1, 0⟩, ⟨"y", [0], 1, 0⟩, ⟨"z", [1], 1, 0⟩]⟩
    [1, 0, 1] (by decide) (by decide) (by decide)

/-- Modelled from the spec: the construction-time validity condition of
section 7 of the spec (positive size, pattern length equal to size, only
bits 0 and 1 in the pattern, initial position inside the pattern). The
source constructor enforces none of it; this predicate exists only to
compare the source behaviour against the spec. -/
def specWheelValid (w : Wheel) : Prop :=
  0 < w.wheel_size ∧ (w.wheel_data.length : Int) = w.wheel_size ∧
    (∀ v ∈ w.wheel_data, v = 0 ∨ v = 1) ∧
    0 ≤ w.current_position ∧ w.current_position < w.wheel_size

/-- C7 counterexample: constructing a wheel of size 0 with an empty
pattern succeeds and returns a wheel object violating every validity
requirement, and banks accept any wheel count; nothing fails at
construction time, contradicting the claim that such constructions are
rejected and no object is ever returned. -/
theorem C7_construction_counterexample :
    mkWheel ("w") 0 0 [] = ⟨"w", [], 0, 0⟩ ∧
    ¬ specWheelValid (mkWheel ("w") 0 0 []) ∧
    (mkWheelSet []).wheels = [] ∧
    (mkMotorWheelSet [⟨"a", [1], 1, 0⟩]).wheels.length = 1 := by
  refine ⟨rfl, ?_, rfl, rfl⟩
  intro h
  exact absurd h.1 (by decide)

/-- C7 amended: construction performs no validation at all; a wheel or
bank object is always returned, storing the given arguments verbatim,
whatever the size, pattern, position or wheel count; invalid parameters
surface only later, when an operation is attempted (advancing a wheel of
size 0 divides by zero, so the embedded advance returns none). -/
theorem C7_no_validation :
    ∀ (nm : String) (sz p : Int) (d : List Int) (ws mws : List Wheel),
      mkWheel nm sz p d = ⟨nm, d, sz, p⟩ ∧
      (mkWheelSet ws).wheels = ws ∧
      (mkMotorWheelSet mws).wheels = mws ∧
      Wheel.advance (mkWheel nm 0 p d) = none := by
  intro nm sz p d ws mws
  exact ⟨rfl, rfl, rfl, rfl⟩

/-- Floor-mod absorbs an already reduced left summand, for a positive
modulus. -/
lemma fmod_add_shift (a b n : Int) (hn : 0 < n) :
    ((a.fmod n) + b).fmod n = (a + b).fmod n := by
  rw [Int.fmod_eq_emod _ (le_of_lt hn), Int.fmod_eq_emod _ (le_of_lt hn),
    Int.fmod_eq_emod _ (le_of_lt hn)]
  conv_rhs => rw [Int.add_emod]
  rw [Int.add_emod (a % n) b, Int.emod_emod_of_dvd a dvd_rfl]

/-- Advancing a wheel of positive size `k + 1` times lands on the
starting position shifted by `k + 1`, reduced modulo the size; only the
position field changes. -/
lemma wheel_advanceN_fmod (k : Nat) :
    ∀ w : Wheel, 1 ≤ w.wheel_size →
      w.advanceN (k + 1)
        = some { w with current_position := Int.fmod (w.current_position + (k + 1 : Nat)) w.wheel_size } := by
  induction k with
  | zero =>
    intro w h
    have hne : w.wheel_size ≠ 0 := by omega
    simp [Wheel.advanceN, Wheel.advance, hne]
  | succ k ih =>
    intro w h
    have hne : w.wheel_size ≠ 0 := by omega
    have hpos : (0 : Int) < w.wheel_size := by omega
    show (w.advance).bind (fun w1 => w1.advanceN (k + 1)) = _
    rw [Wheel.advance, if_neg hne, Option.some_bind,
      ih { w with current_position := Int.fmod (w.current_position + 1) w.wheel_size } h]
    rw [Option.some.injEq]
    rw [fmod_add_shift (w.current_position + 1) (k + 1 : Nat) w.wheel_size hpos]
    have hcast : w.current_position + 1 + (k + 1 : Nat) = w.current_position + (k + 1 + 1 : Nat) := by
      push_cast
      ring
    rw [hcast]

/-- C8: a wheel of size N, at a valid position, returns to exactly its
original state after N advances (hence original position and original
current value); each single advance succeeds and replaces the position
by position plus one modulo N, every other field untouched. -/
theorem C8_wheel_wraparound :
    ∀ w : Wheel, 1 ≤ w.wheel_size →
      0 ≤ w.current_position → w.current_position < w.wheel_size →
      w.advanceN w.wheel_size.toNat = some w ∧
      w.advance = some { w with current_position := Int.fmod (w.current_position + 1) w.wheel_size } := by
  intro w h1 h2 h3
  have hne : w.wheel_size ≠ 0 := by omega
  refine ⟨?_, by rw [Wheel.advance, if_neg hne]⟩
  obtain ⟨k, hk⟩ : ∃ k : Nat, w.wheel_size.toNat = k + 1 := ⟨w.wheel_size.toNat - 1, by omega⟩
  rw [hk, wheel_advanceN_fmod k w h1]
  have hsz : ((k + 1 : Nat) : Int) = w.wheel_size := by omega
  rw [Option.some.injEq]
  have hposmod : Int.fmod (w.current_position + (k + 1 : Nat)) w.wheel_size
      = w.current_position := by
    rw [hsz, Int.fmod_eq_emod _ (by omega : (0 : Int) ≤ w.wheel_size)]
    rw [show w.current_position + w.wheel_size = w.current_position + w.wheel_size * 1 by ring]
    rw [Int.add_mul_emod_self_left]
    exact Int.emod_eq_of_lt h2 h3
  rw [hposmod]

/-- C8 witness: a size 3 wheel at position 1 returns to itself after 3
advances, and one advance moves it to position 2. -/
theorem C8_wheel_wraparound_witness :
    Wheel.advanceN ⟨"w", [1, 0, 1], 3, 1⟩ (Int.toNat 3) = some ⟨"w", [1, 0, 1], 3, 1⟩ ∧
    Wheel.advance ⟨"w", [1, 0, 1], 3, 1⟩
      = some { (⟨"w", [1, 0, 1], 3, 1⟩ : Wheel) with current_position := Int.fmod (1 + 1) 3 } :=
  C8_wheel_wraparound ⟨"w", [1, 0, 1], 3, 1⟩ (by decide) (by decide) (by decide)

/-- C10: for a wheel of positive size, a single advance always succeeds
and leaves the position inside the half-open interval from 0 to the
size, whatever the starting position, negative or too large included;
re-applying the same statement to the result shows the invariant is
preserved by every later advance. -/
theorem C10_position_normalization :
    ∀ w : Wheel, 1 ≤ w.wheel_size →
      w.advance = some { w with current_position := Int.fmod (w.current_position + 1) w.wheel_size } ∧
      0 ≤ Int.fmod (w.current_position + 1) w.wheel_size ∧
      Int.fmod (w.current_position + 1) w.wheel_size < w.wheel_size := by
  intro w h
  have hne : w.wheel_size ≠ 0 := by omega
  have hpos : (0 : Int) < w.wheel_size := by omega
  exact ⟨by rw [Wheel.advance, if_neg hne],
    Int.fmod_nonneg' _ hpos, Int.fmod_lt_of_pos _ hpos⟩

/-- C10 witness: a size 3 wheel at the invalid position -7 advances to a
position inside the valid range. -/
theorem C10_position_normalization_witness :
    Wheel.advance ⟨"w", [1, 0, 1], 3, -7⟩
      = some { (⟨"w", [1, 0, 1], 3, -7⟩ : Wheel) with current_position := Int.fmod (-7 + 1) 3 } ∧
    0 ≤ Int.fmod (-7 + 1) 3 ∧ Int.fmod (-7 + 1) 3 < 3 :=
  C10_position_normalization ⟨"w", [1, 0, 1], 3, -7⟩ (by decide)

/-- Erase the diagnostic name of a wheel, keeping pattern, size and
position: the construction parameters that can influence encryption. -/
def stripWheel (w : Wheel) : Wheel :=
  { w with wheel_name := "" }

/-- Erase all diagnostic names in a bank. -/
def stripWheelSet (s : WheelSet) : WheelSet :=
  ⟨s.wheels.map stripWheel⟩

/-- Erase all diagnostic names in a motor bank. -/
def stripMotorWheelSet (m : MotorWheelSet) : MotorWheelSet :=
  ⟨m.wheels.map stripWheel⟩

/-- Erase all diagnostic names in a machine. -/
def stripMachine (m : LorenzMachine) : LorenzMachine :=
  ⟨stripWheelSet m.k_set, stripWheelSet m.s_set, stripMotorWheelSet m.m_set⟩

/-- Wheel advance ignores the diagnostic name. -/
lemma stripWheel_advance (w : Wheel) :
    (stripWheel w).advance = (w.advance).map stripWheel := by
  cases w with
  | mk nm d sz p =>
    rw [stripWheel, Wheel.advance, Wheel.advance]
    by_cases h : sz = 0
    · simp [h]
    · simp [h, stripWheel]

/-- The wheel read ignores the diagnostic name. -/
lemma stripWheel_value (w : Wheel) :
    (stripWheel w).get_current_value = w.get_current_value := by
  cases w with
  | mk nm d sz p => rfl

/-- The bank advance loop commutes with name erasure. -/
lemma advanceWheels_strip (l : List Wheel) :
    advanceWheels (l.map stripWheel) = (advanceWheels l).map (List.map stripWheel) := by
  induction l with
  | nil => rfl
  | cons w ws ih =>
    simp only [List.map_cons, advanceWheels, stripWheel_advance, ih]
    cases hw : w.advance with
    | none => rfl
    | some w1 =>
      simp only [Option.map_some, Option.some_bind]
      cases hws : advanceWheels ws with
      | none => rfl
      | some ws1 => rfl

/-- The bank read loop ignores diagnostic names. -/
lemma readWheels_strip (l : List Wheel) :
    readWheels (l.map stripWheel) = readWheels l := by
  induction l with
  | nil => rfl
  | cons w ws ih => simp only [List.map_cons, readWheels, stripWheel_value, ih]

/-- Bank advance commutes with name erasure. -/
lemma stripWheelSet_advance (s : WheelSet) :
    (stripWheelSet s).advance = (s.advance).map stripWheelSet := by
  rw [WheelSet.advance, WheelSet.advance, stripWheelSet, advanceWheels_strip]
  cases advanceWheels s.wheels with
  | none => rfl
  | some l => rfl

/-- The aggregate read ignores diagnostic names. -/
lemma stripWheelSet_value (s : WheelSet) :
    (stripWheelSet s).get_current_value = s.get_current_value := by
  rw [WheelSet.get_current_value, WheelSet.get_current_value, stripWheelSet,
    readWheels_strip]

/-- Motor bank advance commutes with name erasure. -/
lemma stripMotorWheelSet_advance (m : MotorWheelSet) :
    (stripMotorWheelSet m).advance = (m.advance).map stripMotorWheelSet := by
  cases m with
  | mk l =>
    cases l with
    | nil => rfl
    | cons w0 rest =>
      simp only [stripMotorWheelSet, List.map_cons, MotorWheelSet.advance,
        stripWheel_advance]
      cases hw : w0.advance with
      | none => rfl
      | some w0a =>
        simp only [Option.map_some', Option.some_bind, stripWheel_value]
        cases hv : w0a.get_current_value with
        | none => rfl
        | some v =>
          simp only [Option.some_bind]
          by_cases h1 : v = 1
          · simp only [if_pos h1]
            cases rest with
            | nil => rfl
            | cons w1 rest2 =>
              simp only [List.map_cons, stripWheel_advance]
              cases hw1 : w1.advance with
              | none => rfl
              | some w1a => simp [stripMotorWheelSet]
          · simp only [if_neg h1]
            simp [stripMotorWheelSet]

/-- The is-active signal ignores diagnostic names. -/
lemma stripMotorWheelSet_active (m : MotorWheelSet) :
    (stripMotorWheelSet m).is_active = m.is_active := by
  rw [MotorWheelSet.is_active, MotorWheelSet.is_active, stripMotorWheelSet]
  rw [List.get?_map]
  cases m.wheels.get? 1 with
  | none => rfl
  | some w1 => simp only [Option.map_some', stripWheel_value]

/-- Machine advance commutes with name erasure. -/
lemma stripMachine_advance (m : LorenzMachine) :
    (stripMachine m).advance = (m.advance).map stripMachine := by
  rw [LorenzMachine.advance, LorenzMachine.advance]
  simp only [stripMachine, stripWheelSet_advance, stripMotorWheelSet_advance]
  cases hk : m.k_set.advance with
  | none => rfl
  | some k1 =>
    simp only [Option.map_some', Option.some_bind]
    cases hm : m.m_set.advance with
    | none => rfl
    | some ms1 =>
      simp only [Option.map_some', Option.some_bind, stripMotorWheelSet_active]
      cases ha : ms1.is_active with
      | none => rfl
      | some active =>
        simp only [Option.some_bind]
        cases active with
        | false => simp [stripMachine]
        | true =>
          simp only [if_pos rfl, stripWheelSet_advance]
          cases hs : m.s_set.advance with
          | none => rfl
          | some s1 => simp [stripMachine]

/-- Single-symbol encryption commutes with name erasure. -/
lemma stripMachine_encrypt_character (m : LorenzMachine) (c : Nat) :
    (stripMachine m).encrypt_character c
      = (m.encrypt_character c).map fun p => (p.1, stripMachine p.2) := by
  rw [LorenzMachine.encrypt_character, LorenzMachine.encrypt_character]
  simp only [stripMachine, stripWheelSet_value]
  cases hk : m.k_set.get_current_value with
  | none => rfl
  | some kv =>
    simp only [Option.some_bind]
    cases hs : m.s_set.get_current_value with
    | none => rfl
    | some sv =>
      simp only [Option.some_bind]
      have hadv : (LorenzMachine.mk (stripWheelSet m.k_set) (stripWheelSet m.s_set)
          (stripMotorWheelSet m.m_set)).advance = (m.advance).map stripMachine :=
        stripMachine_advance m
      rw [hadv]
      cases ha : m.advance with
      | none => rfl
      | some m1 => rfl

/-- Sequence encryption commutes with name erasure. -/
lemma stripMachine_encrypt_list (msg : List Nat) :
    ∀ m : LorenzMachine,
      (stripMachine m).encrypt_list msg
        = (m.encrypt_list msg).map fun p => (p.1, stripMachine p.2) := by
  induction msg with
  | nil => intro m; rfl
  | cons c cs ih =>
    intro m
    rw [LorenzMachine.encrypt_list, LorenzMachine.encrypt_list,
      stripMachine_encrypt_character]
    cases hc : m.encrypt_character c with
    | none => rfl
    | some p =>
      simp only [Option.map_some', Option.some_bind, ih p.2]
      cases hrest : p.2.encrypt_list cs with
      | none => rfl
      | some q => rfl

/-- C9: two machines that agree on every construction parameter that is
not a diagnostic wheel name (pattern, size, position of every wheel in
all three banks) produce identical output sequences on identical inputs;
the engine state holds nothing else, so construction determines the
output completely. -/
theorem C9_determinism :
    ∀ (m1 m2 : LorenzMachine) (msg : List Nat),
      stripMachine m1 = stripMachine m2 →
      (m1.encrypt_list msg).map Prod.fst = (m2.encrypt_list msg).map Prod.fst := by
  intro m1 m2 msg h
  have h1 := stripMachine_encrypt_list msg m1
  have h2 := stripMachine_encrypt_list msg m2
  rw [h] at h1
  have hh := h1.symm.trans h2
  have hc := congrArg (Option.map Prod.fst) hh
  rw [Option.map_map, Option.map_map] at hc
  have hcomp : (Prod.fst ∘ fun p : List Nat × LorenzMachine => (p.1, stripMachine p.2))
      = Prod.fst := rfl
  rw [hcomp] at hc
  exact hc

/-- C9 witness: two machines identical except for wheel names encrypt
the sequence 0, 3 to the same output. -/
theorem C9_determinism_witness :
    (LorenzMachine.encrypt_list
        ⟨⟨[⟨"kA", [1], 1, 0⟩]⟩, ⟨[⟨"sA", [0], 1, 0⟩]⟩,
         ⟨[⟨"mA", [1], 1, 0⟩, ⟨"mB", [1], 1, 0⟩]⟩⟩ [0, 3]).map Prod.fst
      = (wMachine.encrypt_list [0, 3]).map Prod.fst :=
  C9_determinism
    ⟨⟨[⟨"kA", [1], 1, 0⟩]⟩, ⟨[⟨"sA", [0], 1, 0⟩]⟩,
     ⟨[⟨"mA", [1], 1, 0⟩, ⟨"mB", [1], 1, 0⟩]⟩⟩ wMachine [0, 3] (by decide)
